import Mathlib

/-!
Shallow embedding of `src/caro/main.cpp`, a command-line utility that renames
files `NUMBER.EXTENSION` in the current directory by adding a user-supplied
offset `a` to the numeric part, restricted to files whose number is at least a
user-supplied minimum `b`.

Modelling conventions:
* Filenames are lists of characters (`Name`).
* The C++ `int` is modelled as `Int`; the one arithmetic operation performed on
  it (`old_number + a`) is wrapped with `wrap32`, two's-complement wraparound
  into the 32-bit signed range, matching the target platform behaviour of
  overflowing `int` addition.  `std::stoi` raises `out_of_range` (and the file
  is skipped with a warning) exactly when the digit run exceeds `INT_MAX`.
* The regex `^(\d+)\.(.+)$` (ECMAScript, byte-based) matches exactly when the
  maximal leading digit run is non-empty, is followed by a literal dot, and the
  non-empty remainder contains no line terminator (for byte-based `char`
  regexes the line terminators are LF and CR); this is `parseName`.
* The directory is a list of entries (name, regular-file flag, abstract
  content); `std::filesystem::directory_iterator` yields them in list order.
* `std::filesystem::rename` overwrites an existing regular file at the target,
  fails if the target is an existing non-regular entry (e.g. a directory), and
  a failed rename is caught by the program and leaves the filesystem unchanged.
* `std::sort` with the strict comparator `compareFilesDesc` (resp. `Asc`)
  produces a list sorted with respect to the complement of the swapped
  comparator; we realise it with `List.insertionSort` of that relation, a
  valid outcome of `std::sort` (the tie order among equal keys is unspecified
  in the source).
-/

namespace Caro

/-- Filenames are modelled as lists of characters. -/
abbrev Name := List Char

/-- Largest value of the platform 32-bit signed `int`. -/
def INT_MAX : Int := 2147483647

/-- Smallest value of the platform 32-bit signed `int`. -/
def INT_MIN : Int := -2147483648

/-- Two's-complement wraparound of an integer into the 32-bit signed range,
modelling overflow of the C++ `int` addition `old_number + a`. -/
def wrap32 (x : Int) : Int := (x + 2 ^ 31) % 2 ^ 32 - 2 ^ 31

/-- Test for an ASCII digit, the character class `\d` of the filename regex. -/
def isDigitChar (c : Char) : Bool := decide ('0' ≤ c) && decide (c ≤ '9')

/-- Numeric value of an ASCII digit character. -/
def digitVal (c : Char) : Nat := c.toNat - 48

/-- Decimal digit character for a value below ten. -/
def digitChar (n : Nat) : Char := Char.ofNat (48 + n)

/-- Value of a digit string, most significant digit first; this is the value
computed by `std::stoi` on the first capture group. -/
def digitsToNat (l : Name) : Nat := l.foldl (fun acc c => 10 * acc + digitVal c) 0

/-- Decimal digits of `n`, least significant first; the first argument is
structural fuel, sufficient whenever it exceeds `n`. -/
def natDigitsRevGo : Nat → Nat → Name
  | 0, _ => []
  | fuel + 1, n =>
    if n < 10 then [digitChar n] else digitChar (n % 10) :: natDigitsRevGo fuel (n / 10)

/-- Decimal rendering of a natural number, as produced by `std::to_string` on a
non-negative `int`: most significant digit first, no leading zeros. -/
def natToDigits (n : Nat) : Name := (natDigitsRevGo (n + 1) n).reverse

/-- Check that an extension contains no byte-level ECMAScript line terminator,
so that `(.+)` can match it. -/
def extOk (ext : Name) : Bool := ext.all fun c => !decide (c = '\n') && !decide (c = '\r')

/-- Result of matching a filename against `^(\d+)\.(.+)$`: the value of the
digit run and the extension, or `none` when the name does not match. -/
def parseName (name : Name) : Option (Nat × Name) :=
  match name.dropWhile isDigitChar with
  | [] => none
  | c :: rest =>
    if name.takeWhile isDigitChar ≠ [] ∧ c = '.' ∧ rest ≠ [] ∧ extOk rest = true then
      some (digitsToNat (name.takeWhile isDigitChar), rest)
    else none

/-- Record for a matched file, mirroring `struct FileInfo` of the source:
the parsed numeric prefix, the original filename and the extension. -/
structure FileInfo where
  number : Int
  origName : Name
  extension : Name
deriving DecidableEq

/-- Regex match followed by `std::stoi` on the digit capture: yields a
`FileInfo` unless the name does not match or the value overflows `int`
(`std::out_of_range`, reported as a warning and the file skipped). -/
def parseEntry? (name : Name) : Option FileInfo :=
  match parseName name with
  | none => none
  | some (v, ext) => if v ≤ 2147483647 then some ⟨(v : Int), name, ext⟩ else none

/-- Directory entry: a filename, whether the entry is a regular file, and an
abstract content (only regular files carry meaningful content). -/
structure Entry where
  name : Name
  isReg : Bool
  content : Nat
deriving DecidableEq

/-- Directory state: the list of entries, in directory-iteration order. -/
abbrev FS := List Entry

/-- Scan phase of `main`: iterate over the directory entries, keep regular
files whose name matches the pattern and whose digit run fits in `int`. -/
def scanFiles (fs : FS) : List FileInfo :=
  fs.filterMap fun e => if e.isReg then parseEntry? e.name else none

/-- Comparator passed to `std::sort` when the offset is non-negative:
descending by original number. -/
def compareFilesDesc (x y : FileInfo) : Prop := x.number > y.number

/-- Comparator passed to `std::sort` when the offset is negative:
ascending by original number. -/
def compareFilesAsc (x y : FileInfo) : Prop := x.number < y.number

instance : DecidableRel compareFilesDesc :=
  fun x y => inferInstanceAs (Decidable (x.number > y.number))

instance : DecidableRel compareFilesAsc :=
  fun x y => inferInstanceAs (Decidable (x.number < y.number))

/-- Sort phase of `main`: `std::sort` with `compareFilesDesc` when `0 ≤ a`,
with `compareFilesAsc` otherwise.  A `std::sort` output is exactly a
permutation sorted with respect to the complement of the swapped strict
comparator; `insertionSort` of that relation is such an output. -/
def sortFiles (a : Int) (files : List FileInfo) : List FileInfo :=
  if 0 ≤ a then files.insertionSort fun x y => ¬ compareFilesDesc y x
  else files.insertionSort fun x y => ¬ compareFilesAsc y x

/-- Outcome of the loop body of the rename pass for one file: one of the three
reported skips, or an attempted rename to the constructed new name. -/
inductive Action where
  | skippedMin (origName : Name) : Action
  | skippedNeg (origName : Name) : Action
  | skippedSame (origName : Name) : Action
  | renamed (origName newName : Name) : Action
deriving DecidableEq

/-- New filename constructed by the source for number `n` (a non-negative
`int` value) and an extension: `std::to_string(n) + "." + extension`. -/
def canonName (n : Int) (ext : Name) : Name := natToDigits n.toNat ++ '.' :: ext

/-- Loop body of the rename pass: compute `new_number = old_number + a` in
`int` arithmetic, then apply the three skip rules in source order, else
attempt the rename. -/
def step (a b : Int) (f : FileInfo) : Action :=
  if f.number < b then .skippedMin f.origName
  else if wrap32 (f.number + a) < 0 then .skippedNeg f.origName
  else if f.origName = canonName (wrap32 (f.number + a)) f.extension then
    .skippedSame f.origName
  else .renamed f.origName (canonName (wrap32 (f.number + a)) f.extension)

/-- Rename pass over the sorted file list: one action per file, in order. -/
def renamePass (a b : Int) (files : List FileInfo) : List Action :=
  files.map (step a b)

/-- Action sequence of a complete successful run on directory `fs`. -/
def fullTrace (a b : Int) (fs : FS) : List Action :=
  renamePass a b (sortFiles a (scanFiles fs))

/-- Result of the whole program: fatal invalid input (exit 1), fatal directory
enumeration error (exit 1), no matching files (exit 0, nothing done), or a
completed rename pass with its action trace (exit 0). -/
inductive ProgResult where
  | invalidInput : ProgResult
  | dirError : ProgResult
  | noFiles : ProgResult
  | completed (trace : List Action) : ProgResult
deriving DecidableEq

/-- The program: read `a` (`none` models `std::cin.fail()`), read `b`,
enumerate the directory (`none` models a `filesystem_error`), scan, test for
emptiness, sort and run the rename pass.  Mirrors the control flow of `main`. -/
def run (inputA inputB : Option Int) (dir : Option FS) : ProgResult :=
  match inputA with
  | none => .invalidInput
  | some a =>
    match inputB with
    | none => .invalidInput
    | some b =>
      match dir with
      | none => .dirError
      | some fs =>
        let files := scanFiles fs
        if files.isEmpty then .noFiles
        else .completed (renamePass a b (sortFiles a files))

/-- Exit status of the process for each program result. -/
def exitCode : ProgResult → Nat
  | .invalidInput => 1
  | .dirError => 1
  | .noFiles => 0
  | .completed _ => 0

/-- Actions performed by a run: the trace of a completed pass, nothing in the
other cases (the program returns before reaching the rename loop). -/
def tracesOf : ProgResult → List Action
  | .completed tr => tr
  | _ => []

/-- Attempted renames of a run, as (old name, new name) pairs in order. -/
def renamesOf (r : ProgResult) : List (Name × Name) :=
  (tracesOf r).filterMap fun act =>
    match act with
    | .renamed o n => some (o, n)
    | _ => none

/-- Semantics of `std::filesystem::rename(old, new)` as observable through the
program: the rename fails (the exception is caught and reported, nothing
changes) when the target names an existing non-regular entry or the source is
not an existing regular file; otherwise the content of the source moves to the
target name, replacing any regular file already there. -/
def applyRename (s : FS) (old new : Name) : FS :=
  if s.any (fun e => decide (e.name = new) && !e.isReg) then s
  else
    match s.find? (fun e => decide (e.name = old) && e.isReg) with
    | none => s
    | some eOld =>
      s.filter (fun e => !decide (e.name = old) && !decide (e.name = new)) ++
        [⟨new, true, eOld.content⟩]

/-- Effect of one action on the directory: a skip changes nothing, a rename
acts through `applyRename`. -/
def applyAction (s : FS) (act : Action) : FS :=
  match act with
  | .renamed old new => applyRename s old new
  | _ => s

/-- Effect of a trace of actions on the directory, applied in order. -/
def applyTrace (s : FS) (tr : List Action) : FS := tr.foldl applyAction s

/-- Directory state after a successful run of the program with offset `a` and
minimum `b` (inputs parsed, enumeration succeeded). -/
def runFS (a b : Int) (fs : FS) : FS := applyTrace fs (fullTrace a b fs)

/-- Decision of whether an action is an attempted rename. -/
def isRenameAct : Action → Bool
  | .renamed _ _ => true
  | _ => false

/-- Original numbers of the files whose processing attempts a rename, in
processing order. -/
def renameSourceNumbers (a b : Int) (fs : FS) : List Int :=
  (((sortFiles a (scanFiles fs)).filter fun f => isRenameAct (step a b f)).map
    fun f => f.number)

/-- Predicate for a name being the source or target of an action. -/
def touches (act : Action) (nm : Name) : Prop :=
  match act with
  | .renamed o n => nm = o ∨ nm = n
  | _ => False

/-! ### Decimal digit lemmas -/

theorem digitVal_digitChar : ∀ n, n < 10 → digitVal (digitChar n) = n := by decide

theorem isDigitChar_digitChar : ∀ n, n < 10 → isDigitChar (digitChar n) = true := by decide

theorem digitChar_ne_zero : ∀ n, n < 10 → 0 < n → digitChar n ≠ '0' := by decide

theorem digitsToNat_append_singleton (l : Name) (c : Char) :
    digitsToNat (l ++ [c]) = 10 * digitsToNat l + digitVal c := by
  simp [digitsToNat, List.foldl_append]

theorem digitsToNat_reverse_go :
    ∀ fuel n, n < fuel → digitsToNat (natDigitsRevGo fuel n).reverse = n := by
  intro fuel
  induction fuel with
  | zero => intro n h; omega
  | succ fuel ih =>
    intro n h
    by_cases h10 : n < 10
    · simp only [natDigitsRevGo, if_pos h10, List.reverse_singleton]
      show digitsToNat ([] ++ [digitChar n]) = n
      rw [digitsToNat_append_singleton, digitVal_digitChar n h10]
      simp [digitsToNat]
    · have hdiv : n / 10 < fuel := by omega
      simp only [natDigitsRevGo, if_neg h10, List.reverse_cons]
      rw [digitsToNat_append_singleton, ih _ hdiv, digitVal_digitChar (n % 10) (by omega)]
      omega

theorem digitsToNat_natToDigits (n : Nat) : digitsToNat (natToDigits n) = n :=
  digitsToNat_reverse_go (n + 1) n (Nat.lt_succ_self n)

theorem natDigitsRevGo_ne_nil (fuel n : Nat) (h : 0 < fuel) : natDigitsRevGo fuel n ≠ [] := by
  cases fuel with
  | zero => omega
  | succ fuel => by_cases h10 : n < 10 <;> simp [natDigitsRevGo, h10]

theorem natToDigits_ne_nil (n : Nat) : natToDigits n ≠ [] := by
  have := natDigitsRevGo_ne_nil (n + 1) n (Nat.succ_pos n)
  simpa [natToDigits] using this

theorem isDigitChar_of_mem_natDigitsRevGo :
    ∀ fuel n c, c ∈ natDigitsRevGo fuel n → isDigitChar c = true := by
  intro fuel
  induction fuel with
  | zero => intro n c hc; simp [natDigitsRevGo] at hc
  | succ fuel ih =>
    intro n c hc
    by_cases h10 : n < 10
    · simp only [natDigitsRevGo, if_pos h10, List.mem_singleton] at hc
      exact hc ▸ isDigitChar_digitChar n h10
    · simp only [natDigitsRevGo, if_neg h10, List.mem_cons] at hc
      rcases hc with hc | hc
      · exact hc ▸ isDigitChar_digitChar (n % 10) (by omega)
      · exact ih _ _ hc

theorem isDigitChar_of_mem_natToDigits {n : Nat} {c : Char} (h : c ∈ natToDigits n) :
    isDigitChar c = true :=
  isDigitChar_of_mem_natDigitsRevGo (n + 1) n c (List.mem_reverse.mp h)

theorem getLast?_natDigitsRevGo :
    ∀ fuel n, n < fuel → 0 < n → (natDigitsRevGo fuel n).getLast? ≠ some '0' := by
  intro fuel
  induction fuel with
  | zero => intro n h; omega
  | succ fuel ih =>
    intro n h hpos
    by_cases h10 : n < 10
    · simp only [natDigitsRevGo, if_pos h10, List.getLast?_singleton]
      intro hc
      exact digitChar_ne_zero n h10 hpos (by injection hc)
    · have hdiv : n / 10 < fuel := by omega
      have hdivpos : 0 < n / 10 := by omega
      simp only [natDigitsRevGo, if_neg h10]
      obtain ⟨x, xs, hx⟩ : ∃ x xs, natDigitsRevGo fuel (n / 10) = x :: xs := by
        cases hgo : natDigitsRevGo fuel (n / 10) with
        | nil => exact absurd hgo (natDigitsRevGo_ne_nil fuel (n / 10) (by omega))
        | cons x xs => exact ⟨x, xs, rfl⟩
      rw [hx, List.getLast?_cons_cons, ← hx]
      exact ih (n / 10) hdiv hdivpos

theorem natToDigits_head_ne_zero {n : Nat} (h : 0 < n) : (natToDigits n).head? ≠ some '0' := by
  rw [natToDigits, List.head?_reverse]
  exact getLast?_natDigitsRevGo (n + 1) n (Nat.lt_succ_self n) h

theorem natToDigits_zero : natToDigits 0 = ['0'] := by decide

/-! ### Lemmas about the filename pattern -/

theorem takeWhile_append_of_all {α : Type} (p : α → Bool) (l r : List α)
    (h : ∀ c ∈ l, p c = true) : (l ++ r).takeWhile p = l ++ r.takeWhile p := by
  induction l with
  | nil => simp
  | cons a l ih =>
    have ha := h a (List.mem_cons_self a l)
    rw [List.cons_append, List.takeWhile_cons, if_pos ha,
      ih fun c hc => h c (List.mem_cons_of_mem a hc), List.cons_append]

theorem dropWhile_append_of_all {α : Type} (p : α → Bool) (l r : List α)
    (h : ∀ c ∈ l, p c = true) : (l ++ r).dropWhile p = r.dropWhile p := by
  induction l with
  | nil => simp
  | cons a l ih =>
    have ha := h a (List.mem_cons_self a l)
    rw [List.cons_append, List.dropWhile_cons, if_pos ha,
      ih fun c hc => h c (List.mem_cons_of_mem a hc)]

theorem isDigitChar_dot : isDigitChar '.' = false := by decide

theorem parseName_canonical (n : Nat) (ext : Name) (hne : ext ≠ [])
    (hok : extOk ext = true) : parseName (natToDigits n ++ '.' :: ext) = some (n, ext) := by
  have hall : ∀ c ∈ natToDigits n, isDigitChar c = true := fun c hc =>
    isDigitChar_of_mem_natToDigits hc
  unfold parseName
  rw [takeWhile_append_of_all _ _ _ hall, dropWhile_append_of_all _ _ _ hall,
    List.takeWhile_cons, List.dropWhile_cons]
  simp [isDigitChar_dot, natToDigits_ne_nil n, hne, hok, digitsToNat_natToDigits]

theorem parseName_some {nm : Name} {v : Nat} {ext : Name} (h : parseName nm = some (v, ext)) :
    ext ≠ [] ∧ extOk ext = true := by
  unfold parseName at h
  split at h
  · exact absurd h (by simp)
  · split at h
    · rename_i hcond
      obtain ⟨-, -, h3, h4⟩ := hcond
      injection h with h'
      obtain ⟨-, hext⟩ := Prod.mk.injEq .. ▸ h'
      exact hext ▸ ⟨h3, h4⟩
    · exact absurd h (by simp)

/-! ### Lemmas about the regex-plus-stoi parse -/

theorem parseEntry?_origName {nm : Name} {f : FileInfo} (h : parseEntry? nm = some f) :
    f.origName = nm := by
  unfold parseEntry? at h
  split at h
  · exact absurd h (by simp)
  · split at h
    · injection h with h'
      rw [← h']
    · exact absurd h (by simp)

theorem parseEntry?_facts {nm : Name} {f : FileInfo} (h : parseEntry? nm = some f) :
    0 ≤ f.number ∧ f.number ≤ INT_MAX ∧ f.extension ≠ [] ∧ extOk f.extension = true := by
  unfold parseEntry? at h
  split at h
  · exact absurd h (by simp)
  · rename_i v ext hp
    split at h
    · rename_i hle
      obtain ⟨hne, hok⟩ := parseName_some hp
      injection h with h'
      rw [← h']
      refine ⟨Int.ofNat_nonneg v, ?_, hne, hok⟩
      show ((v : Int)) ≤ INT_MAX
      unfold INT_MAX
      exact_mod_cast hle
    · exact absurd h (by simp)

theorem parseEntry?_canonical {n : Int} (ext : Name) (h0 : 0 ≤ n) (hmax : n ≤ INT_MAX)
    (hne : ext ≠ []) (hok : extOk ext = true) :
    parseEntry? (canonName n ext) = some ⟨n, canonName n ext, ext⟩ := by
  unfold parseEntry? canonName
  rw [parseName_canonical n.toNat ext hne hok]
  have hle : n.toNat ≤ 2147483647 := by unfold INT_MAX at hmax; omega
  have hcast : ((n.toNat : Int)) = n := Int.toNat_of_nonneg h0
  simp [hle, hcast]

/-! ### Lemmas about 32-bit wraparound -/

theorem wrap32_eq_self {x : Int} (h1 : INT_MIN ≤ x) (h2 : x < 2 ^ 31) : wrap32 x = x := by
  unfold INT_MIN at h1
  unfold wrap32
  rw [Int.emod_eq_of_lt (by omega) (by omega)]
  omega

theorem wrap32_lt (x : Int) : wrap32 x < 2 ^ 31 := by
  unfold wrap32
  have := Int.emod_lt_of_pos (x + 2 ^ 31) (show (0 : Int) < 2 ^ 32 by norm_num)
  omega

theorem wrap32_ge (x : Int) : INT_MIN ≤ wrap32 x := by
  unfold wrap32 INT_MIN
  have := Int.emod_nonneg (x + 2 ^ 31) (show (2 : Int) ^ 32 ≠ 0 by norm_num)
  omega

/-! ### Lemmas about the scan phase -/

theorem mem_scanFiles {fs : FS} {f : FileInfo} :
    f ∈ scanFiles fs ↔ ∃ e ∈ fs, e.isReg = true ∧ parseEntry? e.name = some f := by
  unfold scanFiles
  rw [List.mem_filterMap]
  constructor
  · rintro ⟨e, he, hef⟩
    by_cases hr : e.isReg = true
    · rw [if_pos hr] at hef
      exact ⟨e, he, hr, hef⟩
    · rw [if_neg hr] at hef
      exact absurd hef (by simp)
  · rintro ⟨e, he, hr, hef⟩
    exact ⟨e, he, by rw [if_pos hr]; exact hef⟩

theorem scanFiles_self {fs : FS} {f : FileInfo} (h : f ∈ scanFiles fs) :
    parseEntry? f.origName = some f := by
  obtain ⟨e, -, -, hp⟩ := mem_scanFiles.mp h
  rw [parseEntry?_origName hp]
  exact hp

theorem scanFiles_facts {fs : FS} {f : FileInfo} (h : f ∈ scanFiles fs) :
    0 ≤ f.number ∧ f.number ≤ INT_MAX ∧ f.extension ≠ [] ∧ extOk f.extension = true :=
  parseEntry?_facts (scanFiles_self h)

/-! ### Lemmas about the sort phase -/

instance : IsTotal FileInfo fun x y => ¬ compareFilesDesc y x :=
  ⟨fun x y => by unfold compareFilesDesc; omega⟩

instance : IsTrans FileInfo fun x y => ¬ compareFilesDesc y x :=
  ⟨fun x y z h1 h2 => by unfold compareFilesDesc at *; omega⟩

instance : IsTotal FileInfo fun x y => ¬ compareFilesAsc y x :=
  ⟨fun x y => by unfold compareFilesAsc; omega⟩

instance : IsTrans FileInfo fun x y => ¬ compareFilesAsc y x :=
  ⟨fun x y z h1 h2 => by unfold compareFilesAsc at *; omega⟩

theorem mem_sortFiles {a : Int} {files : List FileInfo} {f : FileInfo} :
    f ∈ sortFiles a files ↔ f ∈ files := by
  unfold sortFiles
  split <;> simp

theorem sorted_sortFiles_desc {a : Int} (ha : 0 ≤ a) (files : List FileInfo) :
    List.Sorted (fun x y => ¬ compareFilesDesc y x) (sortFiles a files) := by
  unfold sortFiles
  rw [if_pos ha]
  exact List.sorted_insertionSort _ files

theorem sorted_sortFiles_asc {a : Int} (ha : ¬ 0 ≤ a) (files : List FileInfo) :
    List.Sorted (fun x y => ¬ compareFilesAsc y x) (sortFiles a files) := by
  unfold sortFiles
  rw [if_neg ha]
  exact List.sorted_insertionSort _ files

/-! ### Lemmas about the per-file step -/

theorem step_skippedMin {a b : Int} {f : FileInfo} (h : f.number < b) :
    step a b f = .skippedMin f.origName := by
  unfold step
  rw [if_pos h]

theorem step_cases (a b : Int) (f : FileInfo) :
    (f.number < b ∧ step a b f = .skippedMin f.origName)
    ∨ (¬ f.number < b ∧ wrap32 (f.number + a) < 0 ∧ step a b f = .skippedNeg f.origName)
    ∨ (¬ f.number < b ∧ ¬ wrap32 (f.number + a) < 0 ∧
        f.origName = canonName (wrap32 (f.number + a)) f.extension ∧
        step a b f = .skippedSame f.origName)
    ∨ (¬ f.number < b ∧ ¬ wrap32 (f.number + a) < 0 ∧
        f.origName ≠ canonName (wrap32 (f.number + a)) f.extension ∧
        step a b f = .renamed f.origName (canonName (wrap32 (f.number + a)) f.extension)) := by
  unfold step
  split_ifs with h1 h2 h3 <;> tauto

theorem step_renamed_inv {a b : Int} {f : FileInfo} {o nm : Name}
    (h : step a b f = .renamed o nm) :
    o = f.origName ∧ nm = canonName (wrap32 (f.number + a)) f.extension ∧
    ¬ f.number < b ∧ ¬ wrap32 (f.number + a) < 0 ∧ f.origName ≠ nm := by
  unfold step at h
  by_cases h1 : f.number < b
  · rw [if_pos h1] at h
    exact absurd h (by simp)
  · rw [if_neg h1] at h
    by_cases h2 : wrap32 (f.number + a) < 0
    · rw [if_pos h2] at h
      exact absurd h (by simp)
    · rw [if_neg h2] at h
      by_cases h3 : f.origName = canonName (wrap32 (f.number + a)) f.extension
      · rw [if_pos h3] at h
        exact absurd h (by simp)
      · rw [if_neg h3] at h
        rw [Action.renamed.injEq] at h
        obtain ⟨ho, hn⟩ := h
        exact ⟨ho.symm, hn.symm, h1, h2, fun hc => h3 (hc.trans hn.symm)⟩

/-! ### Lemmas about the rename semantics -/

theorem applyAction_skippedMin (s : FS) (o : Name) : applyAction s (.skippedMin o) = s := rfl

theorem applyAction_skippedNeg (s : FS) (o : Name) : applyAction s (.skippedNeg o) = s := rfl

theorem applyAction_skippedSame (s : FS) (o : Name) : applyAction s (.skippedSame o) = s := rfl

theorem applyAction_renamed (s : FS) (old new : Name) :
    applyAction s (.renamed old new) = applyRename s old new := rfl

/-- Case analysis of a rename action: either it fails (target blocked by a
non-regular entry, or no regular source) and the directory is unchanged, or
the source entry exists, no non-regular entry blocks the target, and the
directory is rewritten by removing source and target names and appending the
moved file. -/
theorem applyRename_cases (s : FS) (old new : Name) :
    (applyRename s old new = s ∧
      ((∃ e ∈ s, e.name = new ∧ e.isReg = false) ∨
        ∀ e ∈ s, ¬(e.name = old ∧ e.isReg = true)))
    ∨ (∃ eOld ∈ s, eOld.name = old ∧ eOld.isReg = true ∧
        (∀ e ∈ s, e.name = new → e.isReg = true) ∧
        applyRename s old new =
          s.filter (fun e => !decide (e.name = old) && !decide (e.name = new)) ++
            [⟨new, true, eOld.content⟩]) := by
  unfold applyRename
  split
  · rename_i hany
    rw [List.any_eq_true] at hany
    obtain ⟨e, he, hp⟩ := hany
    simp only [Bool.and_eq_true, decide_eq_true_eq, Bool.not_eq_true'] at hp
    exact Or.inl ⟨rfl, Or.inl ⟨e, he, hp⟩⟩
  · rename_i hany
    have hnb : ∀ e ∈ s, e.name = new → e.isReg = true := by
      intro e he hn
      by_contra hr
      apply hany
      rw [List.any_eq_true]
      refine ⟨e, he, ?_⟩
      simp only [Bool.and_eq_true, decide_eq_true_eq, Bool.not_eq_true']
      refine ⟨hn, ?_⟩
      revert hr
      cases e.isReg <;> simp
    split
    · rename_i hfind
      refine Or.inl ⟨rfl, Or.inr ?_⟩
      intro e he hp
      have := List.find?_eq_none.mp hfind e he
      simp only [Bool.and_eq_true, decide_eq_true_eq] at this
      exact this ⟨hp.1, hp.2⟩
    · rename_i eOld hfind
      have hmem := List.mem_of_find?_eq_some hfind
      have hp := List.find?_some hfind
      simp only [Bool.and_eq_true, decide_eq_true_eq] at hp
      exact Or.inr ⟨eOld, hmem, hp.1, hp.2, hnb, rfl⟩

theorem applyAction_mem_nonreg {s : FS} {act : Action} {e : Entry}
    (hnd : (s.map Entry.name).Nodup) (he : e ∈ s) (hnr : e.isReg = false) :
    e ∈ applyAction s act := by
  cases act with
  | skippedMin o => exact he
  | skippedNeg o => exact he
  | skippedSame o => exact he
  | renamed old new =>
    rw [applyAction_renamed]
    rcases applyRename_cases s old new with ⟨heq, -⟩ | ⟨eOld, hmem, hname, hreg, hnb, heq⟩
    · rw [heq]; exact he
    · rw [heq]
      refine List.mem_append_left _ ?_
      rw [List.mem_filter]
      refine ⟨he, ?_⟩
      simp only [Bool.and_eq_true, Bool.not_eq_true', decide_eq_false_iff_not]
      constructor
      · intro hc
        have : e = eOld := List.inj_on_of_nodup_map hnd he hmem (hc.trans hname.symm)
        rw [this] at hnr
        rw [hreg] at hnr
        exact absurd hnr (by simp)
      · intro hc
        have := hnb e he hc
        rw [this] at hnr
        exact absurd hnr (by simp)

theorem applyAction_nonreg_mem {s : FS} {act : Action} {e : Entry}
    (he : e ∈ applyAction s act) (hnr : e.isReg = false) : e ∈ s := by
  cases act with
  | skippedMin o => exact he
  | skippedNeg o => exact he
  | skippedSame o => exact he
  | renamed old new =>
    rw [applyAction_renamed] at he
    rcases applyRename_cases s old new with ⟨heq, -⟩ | ⟨eOld, hmem, -, -, -, heq⟩
    · rw [heq] at he; exact he
    · rw [heq] at he
      rcases List.mem_append.mp he with hf | hs
      · exact List.mem_of_mem_filter hf
      · rw [List.mem_singleton] at hs
        rw [hs] at hnr
        exact absurd hnr (by simp)

theorem applyAction_untouched {s : FS} {act : Action} {nm : Name} (h : ¬ touches act nm)
    {e : Entry} (hen : e.name = nm) : e ∈ applyAction s act ↔ e ∈ s := by
  cases act with
  | skippedMin o => exact Iff.rfl
  | skippedNeg o => exact Iff.rfl
  | skippedSame o => exact Iff.rfl
  | renamed old new =>
    have hno : nm ≠ old ∧ nm ≠ new := by
      unfold touches at h
      tauto
    rw [applyAction_renamed]
    rcases applyRename_cases s old new with ⟨heq, -⟩ | ⟨eOld, hmem, -, -, -, heq⟩
    · rw [heq]
    · rw [heq]
      constructor
      · intro hmem2
        rcases List.mem_append.mp hmem2 with hf | hsing
        · exact List.mem_of_mem_filter hf
        · rw [List.mem_singleton] at hsing
          exact absurd (hen ▸ congrArg Entry.name hsing) hno.2
      · intro hmem2
        refine List.mem_append_left _ ?_
        rw [List.mem_filter]
        refine ⟨hmem2, ?_⟩
        simp only [Bool.and_eq_true, Bool.not_eq_true', decide_eq_false_iff_not]
        exact ⟨hen ▸ hno.1, hen ▸ hno.2⟩

theorem applyAction_content {s : FS} {act : Action} {e : Entry}
    (he : e ∈ applyAction s act) (hr : e.isReg = true) :
    ∃ e0 ∈ s, e0.isReg = true ∧ e0.content = e.content := by
  cases act with
  | skippedMin o => exact ⟨e, he, hr, rfl⟩
  | skippedNeg o => exact ⟨e, he, hr, rfl⟩
  | skippedSame o => exact ⟨e, he, hr, rfl⟩
  | renamed old new =>
    rw [applyAction_renamed] at he
    rcases applyRename_cases s old new with ⟨heq, -⟩ | ⟨eOld, hmem, -, hregOld, -, heq⟩
    · rw [heq] at he; exact ⟨e, he, hr, rfl⟩
    · rw [heq] at he
      rcases List.mem_append.mp he with hf | hsing
      · exact ⟨e, List.mem_of_mem_filter hf, hr, rfl⟩
      · rw [List.mem_singleton] at hsing
        exact ⟨eOld, hmem, hregOld, by rw [hsing]⟩

theorem applyAction_nodup {s : FS} {act : Action} (hnd : (s.map Entry.name).Nodup) :
    ((applyAction s act).map Entry.name).Nodup := by
  cases act with
  | skippedMin o => exact hnd
  | skippedNeg o => exact hnd
  | skippedSame o => exact hnd
  | renamed old new =>
    rw [applyAction_renamed]
    rcases applyRename_cases s old new with ⟨heq, -⟩ | ⟨eOld, hmem, -, -, -, heq⟩
    · rw [heq]; exact hnd
    · rw [heq, List.map_append]
      rw [List.nodup_append]
      refine ⟨hnd.sublist (List.Sublist.map _ (List.filter_sublist s)), List.nodup_singleton _, ?_⟩
      intro x hx hxs
      rw [List.mem_map] at hx
      obtain ⟨e2, he2, hname2⟩ := hx
      have := (List.mem_filter.mp he2).2
      simp only [Bool.and_eq_true, Bool.not_eq_true', decide_eq_false_iff_not] at this
      simp only [List.map_cons, List.map_nil, List.mem_singleton] at hxs
      exact this.2 (hname2.trans hxs)

theorem applyTrace_nil (s : FS) : applyTrace s [] = s := rfl

theorem applyTrace_cons (s : FS) (act : Action) (tr : List Action) :
    applyTrace s (act :: tr) = applyTrace (applyAction s act) tr := rfl

theorem applyTrace_fixed {s : FS} {tr : List Action}
    (h : ∀ act ∈ tr, applyAction s act = s) : applyTrace s tr = s := by
  induction tr with
  | nil => rfl
  | cons act tr ih =>
    rw [applyTrace_cons, h act (List.mem_cons_self act tr)]
    exact ih fun x hx => h x (List.mem_cons_of_mem act hx)

theorem applyTrace_nodup {s : FS} {tr : List Action} (hnd : (s.map Entry.name).Nodup) :
    ((applyTrace s tr).map Entry.name).Nodup := by
  induction tr generalizing s with
  | nil => exact hnd
  | cons act tr ih => exact ih (applyAction_nodup hnd)

theorem applyTrace_mem_nonreg {s : FS} {tr : List Action} {e : Entry}
    (hnd : (s.map Entry.name).Nodup) (he : e ∈ s) (hnr : e.isReg = false) :
    e ∈ applyTrace s tr := by
  induction tr generalizing s with
  | nil => exact he
  | cons act tr ih =>
    exact ih (applyAction_nodup hnd) (applyAction_mem_nonreg hnd he hnr)

theorem applyTrace_nonreg_mem {s : FS} {tr : List Action} {e : Entry}
    (he : e ∈ applyTrace s tr) (hnr : e.isReg = false) : e ∈ s := by
  induction tr generalizing s with
  | nil => exact he
  | cons act tr ih => exact applyAction_nonreg_mem (ih he) hnr

theorem applyTrace_untouched {s : FS} {tr : List Action} {nm : Name}
    (h : ∀ act ∈ tr, ¬ touches act nm) {e : Entry} (hen : e.name = nm) :
    e ∈ applyTrace s tr ↔ e ∈ s := by
  induction tr generalizing s with
  | nil => exact Iff.rfl
  | cons act tr ih =>
    rw [applyTrace_cons]
    rw [ih fun x hx => h x (List.mem_cons_of_mem act hx)]
    exact applyAction_untouched (h act (List.mem_cons_self act tr)) hen

theorem applyTrace_content {s : FS} {tr : List Action} {e : Entry}
    (he : e ∈ applyTrace s tr) (hr : e.isReg = true) :
    ∃ e0 ∈ s, e0.isReg = true ∧ e0.content = e.content := by
  induction tr generalizing s with
  | nil => exact ⟨e, he, hr, rfl⟩
  | cons act tr ih =>
    obtain ⟨e1, he1, hr1, hc1⟩ := ih he
    obtain ⟨e0, he0, hr0, hc0⟩ := applyAction_content he1 hr1
    exact ⟨e0, he0, hr0, hc0.trans hc1⟩

/-! ### The directory after a run with offset zero -/

theorem applyTrace_renamePass (s : FS) (a b : Int) (files : List FileInfo) :
    applyTrace s (renamePass a b files) =
      files.foldl (fun t f => applyAction t (step a b f)) s := by
  unfold renamePass applyTrace
  exact List.foldl_map _ _ _ _

theorem wrap32_id_of_int_range {n : Int} (h0 : 0 ≤ n) (hmax : n ≤ INT_MAX) :
    wrap32 (n + 0) = n := by
  rw [add_zero]
  refine wrap32_eq_self ?_ ?_
  · unfold INT_MIN
    omega
  · unfold INT_MAX at hmax
    omega

/-- Stability predicate: every regular matched file of the directory either
falls below the minimum, already carries its canonical name, or its canonical
target name is occupied by a non-regular entry (so the rename would fail). -/
def GoodFS (b : Int) (s : FS) : Prop :=
  ∀ e ∈ s, e.isReg = true → ∀ f, parseEntry? e.name = some f →
    f.number < b ∨ e.name = canonName f.number f.extension
    ∨ ∃ e2 ∈ s, e2.isReg = false ∧ e2.name = canonName f.number f.extension

theorem step_zero_noop {b : Int} {s : FS} (hg : GoodFS b s) {f : FileInfo}
    (hf : f ∈ scanFiles s) : applyAction s (step 0 b f) = s := by
  obtain ⟨e, he, hreg, hpe⟩ := mem_scanFiles.mp hf
  have hofn : f.origName = e.name := parseEntry?_origName hpe
  obtain ⟨hn0, hnmax, -, -⟩ := parseEntry?_facts hpe
  have hwrap : wrap32 (f.number + 0) = f.number := wrap32_id_of_int_range hn0 hnmax
  by_cases hlt : f.number < b
  · rw [step_skippedMin hlt]
    rfl
  · rcases hg e he hreg f hpe with hblt | hcanon | ⟨e2, he2, hnr2, hname2⟩
    · exact absurd hblt hlt
    · have hstep : step 0 b f = .skippedSame f.origName := by
        unfold step
        rw [hwrap, if_neg hlt, if_neg (not_lt.mpr hn0), if_pos (hofn.trans hcanon)]
      rw [hstep]
      rfl
    · by_cases hcan : f.origName = canonName f.number f.extension
      · have hstep : step 0 b f = .skippedSame f.origName := by
          unfold step
          rw [hwrap, if_neg hlt, if_neg (not_lt.mpr hn0), if_pos hcan]
        rw [hstep]
        rfl
      · have hstep : step 0 b f = .renamed f.origName (canonName f.number f.extension) := by
          unfold step
          rw [hwrap, if_neg hlt, if_neg (not_lt.mpr hn0), if_neg hcan]
        rw [hstep, applyAction_renamed]
        unfold applyRename
        rw [if_pos (List.any_eq_true.mpr ⟨e2, he2, by simp [hname2, hnr2]⟩)]

theorem runFS_fixed_of_good {b : Int} {s : FS} (hg : GoodFS b s) : runFS 0 b s = s := by
  unfold runFS fullTrace
  apply applyTrace_fixed
  intro act hact
  unfold renamePass at hact
  rw [List.mem_map] at hact
  obtain ⟨f, hf, hfa⟩ := hact
  rw [← hfa]
  exact step_zero_noop hg (mem_sortFiles.mp hf)

theorem goodFS_foldl (b : Int) :
    ∀ (rem : List FileInfo) (s : FS),
      (s.map Entry.name).Nodup →
      (∀ g ∈ rem, parseEntry? g.origName = some g) →
      (∀ e ∈ s, e.isReg = true → ∀ f, parseEntry? e.name = some f →
        f.number < b ∨ e.name = canonName f.number f.extension
        ∨ (∃ e2 ∈ s, e2.isReg = false ∧ e2.name = canonName f.number f.extension)
        ∨ ∃ g ∈ rem, g.origName = e.name) →
      GoodFS b (rem.foldl (fun t f => applyAction t (step 0 b f)) s) := by
  intro rem
  induction rem with
  | nil =>
    intro s hnd hrem hinv e he hreg f hpe
    rcases hinv e he hreg f hpe with h | h | h | ⟨g, hg, -⟩
    · exact Or.inl h
    · exact Or.inr (Or.inl h)
    · exact Or.inr (Or.inr h)
    · exact absurd hg (List.not_mem_nil g)
  | cons g rest ih =>
    intro s hnd hrem hinv
    rw [List.foldl_cons]
    have hg : parseEntry? g.origName = some g := hrem g (List.mem_cons_self g rest)
    obtain ⟨hg0, hgmax, hgext, hgok⟩ := parseEntry?_facts hg
    have hwrapg : wrap32 (g.number + 0) = g.number := wrap32_id_of_int_range hg0 hgmax
    have hfg : ∀ {e : Entry} {f : FileInfo}, g.origName = e.name →
        parseEntry? e.name = some f → f = g := by
      intro e f hge hpe
      rw [← hge] at hpe
      rw [hg] at hpe
      exact (Option.some_inj.mp hpe).symm
    apply ih
    · exact applyAction_nodup hnd
    · intro g2 hg2
      exact hrem g2 (List.mem_cons_of_mem g hg2)
    · by_cases hlt : g.number < b
      · have hs : applyAction s (step 0 b g) = s := by rw [step_skippedMin hlt]; rfl
        rw [hs]
        intro e he hreg f hpe
        rcases hinv e he hreg f hpe with h | h | h | ⟨g2, hg2, hge⟩
        · exact Or.inl h
        · exact Or.inr (Or.inl h)
        · exact Or.inr (Or.inr (Or.inl h))
        · rcases List.mem_cons.mp hg2 with hgg | hg2r
          · exact Or.inl ((hfg (hgg ▸ hge) hpe) ▸ hlt)
          · exact Or.inr (Or.inr (Or.inr ⟨g2, hg2r, hge⟩))
      · by_cases hcan : g.origName = canonName g.number g.extension
        · have hstep : step 0 b g = .skippedSame g.origName := by
            unfold step
            rw [hwrapg, if_neg hlt, if_neg (not_lt.mpr hg0), if_pos hcan]
          have hs : applyAction s (step 0 b g) = s := by rw [hstep]; rfl
          rw [hs]
          intro e he hreg f hpe
          rcases hinv e he hreg f hpe with h | h | h | ⟨g2, hg2, hge⟩
          · exact Or.inl h
          · exact Or.inr (Or.inl h)
          · exact Or.inr (Or.inr (Or.inl h))
          · rcases List.mem_cons.mp hg2 with hgg | hg2r
            · have hfg2 := hfg (hgg ▸ hge) hpe
              refine Or.inr (Or.inl ?_)
              rw [hfg2, ← (hgg ▸ hge : g.origName = e.name)]
              exact hcan
            · exact Or.inr (Or.inr (Or.inr ⟨g2, hg2r, hge⟩))
        · have hstep : step 0 b g = .renamed g.origName (canonName g.number g.extension) := by
            unfold step
            rw [hwrapg, if_neg hlt, if_neg (not_lt.mpr hg0), if_neg hcan]
          rw [hstep, applyAction_renamed]
          rcases applyRename_cases s g.origName (canonName g.number g.extension) with
            ⟨heq, hfail⟩ | ⟨eOld, hmemO, hnameO, hregO, hnb, heq⟩
          · rw [heq]
            intro e he hreg f hpe
            rcases hinv e he hreg f hpe with h | h | h | ⟨g2, hg2, hge⟩
            · exact Or.inl h
            · exact Or.inr (Or.inl h)
            · exact Or.inr (Or.inr (Or.inl h))
            · rcases List.mem_cons.mp hg2 with hgg | hg2r
              · have hfg2 := hfg (hgg ▸ hge) hpe
                rcases hfail with ⟨e2, he2, hn2, hr2⟩ | hnosrc
                · refine Or.inr (Or.inr (Or.inl ⟨e2, he2, hr2, ?_⟩))
                  rw [hfg2]
                  exact hn2
                · exact absurd ⟨(hgg ▸ hge).symm, hreg⟩ (hnosrc e he)
              · exact Or.inr (Or.inr (Or.inr ⟨g2, hg2r, hge⟩))
          · rw [heq]
            intro e he hreg f hpe
            rcases List.mem_append.mp he with hef | hes
            · have heS := List.mem_of_mem_filter hef
              have hbool := (List.mem_filter.mp hef).2
              simp only [Bool.and_eq_true, Bool.not_eq_true',
                decide_eq_false_iff_not] at hbool
              rcases hinv e heS hreg f hpe with h | h | ⟨e2, he2, hr2, hn2⟩ | ⟨g2, hg2, hge⟩
              · exact Or.inl h
              · exact Or.inr (Or.inl h)
              · have hne2new : e2.name ≠ canonName g.number g.extension := by
                  intro hc
                  have := hnb e2 he2 hc
                  rw [this] at hr2
                  exact absurd hr2 (by simp)
                have hne2old : e2.name ≠ g.origName := by
                  intro hc
                  have : e2 = eOld :=
                    List.inj_on_of_nodup_map hnd he2 hmemO (hc.trans hnameO.symm)
                  rw [this, hregO] at hr2
                  exact absurd hr2 (by simp)
                refine Or.inr (Or.inr (Or.inl ⟨e2, ?_, hr2, hn2⟩))
                refine List.mem_append_left _ ?_
                rw [List.mem_filter]
                refine ⟨he2, ?_⟩
                simp only [Bool.and_eq_true, Bool.not_eq_true',
                  decide_eq_false_iff_not]
                exact ⟨hne2old, hne2new⟩
              · rcases List.mem_cons.mp hg2 with hgg | hg2r
                · exact absurd (hgg ▸ hge).symm hbool.1
                · exact Or.inr (Or.inr (Or.inr ⟨g2, hg2r, hge⟩))
            · rw [List.mem_singleton] at hes
              have hename : e.name = canonName g.number g.extension := by rw [hes]
              rw [hename] at hpe
              rw [parseEntry?_canonical g.extension hg0 hgmax hgext hgok] at hpe
              have hfeq := Option.some_inj.mp hpe
              refine Or.inr (Or.inl ?_)
              rw [← hfeq, hename]

theorem runFS_good (b : Int) (fs : FS) (hnd : (fs.map Entry.name).Nodup) :
    GoodFS b (runFS 0 b fs) := by
  unfold runFS fullTrace
  rw [applyTrace_renamePass]
  apply goodFS_foldl
  · exact hnd
  · intro g hgm
    exact scanFiles_self (mem_sortFiles.mp hgm)
  · intro e he hreg f hpe
    refine Or.inr (Or.inr (Or.inr ⟨f, ?_, parseEntry?_origName hpe⟩))
    exact mem_sortFiles.mpr (mem_scanFiles.mpr ⟨e, he, hreg, hpe⟩)

theorem runFS_zero_idem (b : Int) (fs : FS) (hnd : (fs.map Entry.name).Nodup) :
    runFS 0 b (runFS 0 b fs) = runFS 0 b fs :=
  runFS_fixed_of_good (runFS_good b fs hnd)

/-! ### Helpers connecting runs and traces -/

theorem run_some (a b : Int) (fs : FS) :
    run (some a) (some b) (some fs) =
      if (scanFiles fs).isEmpty then .noFiles
      else .completed (renamePass a b (sortFiles a (scanFiles fs))) := rfl

theorem run_noInputA (ib : Option Int) (d : Option FS) :
    run none ib d = .invalidInput := rfl

theorem run_noInputB (a : Int) (d : Option FS) :
    run (some a) none d = .invalidInput := rfl

theorem run_noDir (a b : Int) : run (some a) (some b) none = .dirError := rfl

theorem renamesOf_run {a b : Int} {fs : FS} {o n : Name}
    (h : (o, n) ∈ renamesOf (run (some a) (some b) (some fs))) :
    ∃ g ∈ scanFiles fs, step a b g = .renamed o n := by
  rw [run_some] at h
  by_cases he : (scanFiles fs).isEmpty
  · rw [if_pos he] at h
    exact absurd h (by simp [renamesOf, tracesOf])
  · rw [if_neg he] at h
    unfold renamesOf tracesOf at h
    rw [List.mem_filterMap] at h
    obtain ⟨act, hact, hsome⟩ := h
    unfold renamePass at hact
    rw [List.mem_map] at hact
    obtain ⟨g, hgm, hga⟩ := hact
    refine ⟨g, mem_sortFiles.mp hgm, ?_⟩
    cases act with
    | skippedMin o2 => exact absurd hsome (by simp)
    | skippedNeg o2 => exact absurd hsome (by simp)
    | skippedSame o2 => exact absurd hsome (by simp)
    | renamed o2 n2 =>
      have : o2 = o ∧ n2 = n := by
        have := Option.some_inj.mp hsome
        exact ⟨congrArg Prod.fst this, congrArg Prod.snd this⟩
      rw [hga, this.1, this.2]

theorem scan_name_inj {fs : FS} {f g : FileInfo} (hf : f ∈ scanFiles fs)
    (hg : g ∈ scanFiles fs) (h : f.origName = g.origName) : f = g := by
  have h1 := scanFiles_self hf
  have h2 := scanFiles_self hg
  rw [h, h2] at h1
  exact (Option.some_inj.mp h1).symm

/-! ### Claim C1 -/

/-- Claim C1, counterexample to the claim as stated.  With the two files
`5.txt` and `5.jpg` and offset `2 ≥ 0`, two renames are attempted but the
original numbers of the renamed files, in processing order, are `[5, 5]`,
which is not strictly decreasing: with tied numbers the strictly-decreasing
ordering claim fails. -/
theorem c1_strict_descent_fails :
    (0 : Int) ≤ 2 ∧
      2 ≤ (renameSourceNumbers 2 0
        [⟨"5.txt".data, true, 0⟩, ⟨"5.jpg".data, true, 1⟩]).length ∧
      ¬ List.Chain' (fun x y : Int => x > y)
        (renameSourceNumbers 2 0 [⟨"5.txt".data, true, 0⟩, ⟨"5.jpg".data, true, 1⟩]) := by
  have h : renameSourceNumbers 2 0
      [⟨"5.txt".data, true, 0⟩, ⟨"5.jpg".data, true, 1⟩] = [5, 5] := by decide
  refine ⟨by decide, ?_, ?_⟩
  · rw [h]
    decide
  · rw [h, List.chain'_pair]
    decide

/-- Claim C1, amended: in every run, when the offset is non-negative the
attempted renames occur in non-increasing order of the files' original
numbers (strictly decreasing whenever two numbers differ), and when the
offset is negative in non-decreasing order. -/
theorem c1_renames_pairwise_monotone (a b : Int) (fs : FS) :
    (0 ≤ a → List.Pairwise (fun x y : Int => x ≥ y) (renameSourceNumbers a b fs))
    ∧ (a < 0 → List.Pairwise (fun x y : Int => x ≤ y) (renameSourceNumbers a b fs)) := by
  constructor
  · intro ha
    have hs := sorted_sortFiles_desc ha (scanFiles fs)
    have hp : List.Pairwise (fun x y : FileInfo => ¬ compareFilesDesc y x)
        ((sortFiles a (scanFiles fs)).filter fun f => isRenameAct (step a b f)) :=
      List.Pairwise.sublist (List.filter_sublist _) hs
    unfold renameSourceNumbers
    rw [List.pairwise_map]
    exact hp.imp fun h => not_lt.mp h
  · intro ha
    have hs := sorted_sortFiles_asc (not_le.mpr ha) (scanFiles fs)
    have hp : List.Pairwise (fun x y : FileInfo => ¬ compareFilesAsc y x)
        ((sortFiles a (scanFiles fs)).filter fun f => isRenameAct (step a b f)) :=
      List.Pairwise.sublist (List.filter_sublist _) hs
    unfold renameSourceNumbers
    rw [List.pairwise_map]
    exact hp.imp fun h => not_lt.mp h

/-- Concrete instantiation of the amended claim C1 at offset `1`, minimum `0`
and directory `{5.txt, 3.txt}`. -/
theorem c1_renames_pairwise_monotone_witness :
    (0 : Int) ≤ 1 ∧
      List.Pairwise (fun x y : Int => x ≥ y)
        (renameSourceNumbers 1 0 [⟨"5.txt".data, true, 0⟩, ⟨"3.txt".data, true, 1⟩]) :=
  ⟨by decide,
    (c1_renames_pairwise_monotone 1 0
      [⟨"5.txt".data, true, 0⟩, ⟨"3.txt".data, true, 1⟩]).1 (by decide)⟩

/-! ### Claim C2 -/

/-- Claim C2, counterexample to the claim as stated.  The file `007.txt`
matches the pattern with number `7`; with offset `0` and minimum `0` its
constructed new name is the canonical `7.txt`, which differs from `007.txt`,
so the run attempts (and performs) a rename even though the offset is zero:
the directory changes. -/
theorem c2_offset_zero_renames :
    renamesOf (run (some 0) (some 0) (some [⟨"007.txt".data, true, 0⟩])) =
      [("007.txt".data, "7.txt".data)] ∧
      runFS 0 0 [⟨"007.txt".data, true, 0⟩] ≠ [⟨"007.txt".data, true, 0⟩] := by
  decide

/-- Claim C2, amended: with offset `0`, a matched file whose name already is
the canonical rendering of its number and extension never has a rename
attempted for it (it reaches the below-minimum or identical-name skip); a
file is renamed only when its digit prefix carries leading zeros.
Consequently the directory transformation of a run with offset `0` is
idempotent: a second run with offset `0` and the same minimum changes
nothing. -/
theorem c2_offset_zero_canonical_and_idempotent (b : Int) (fs : FS)
    (hnd : (fs.map Entry.name).Nodup) :
    (∀ f ∈ scanFiles fs, f.origName = canonName f.number f.extension →
      ∀ o nm, step 0 b f ≠ .renamed o nm)
    ∧ runFS 0 b (runFS 0 b fs) = runFS 0 b fs := by
  refine ⟨?_, runFS_zero_idem b fs hnd⟩
  intro f hf hcanon o nm hc
  obtain ⟨-, hnm, -, -, hneq⟩ := step_renamed_inv hc
  obtain ⟨h0, hmax, -, -⟩ := scanFiles_facts hf
  have hwrap : wrap32 (f.number + 0) = f.number := wrap32_id_of_int_range h0 hmax
  rw [hwrap] at hnm
  exact hneq (hcanon.trans hnm.symm)

/-- Concrete instantiation of the amended claim C2 on the directory
`{7.txt}` with minimum `0`. -/
theorem c2_offset_zero_canonical_and_idempotent_witness :
    (([⟨"7.txt".data, true, 0⟩] : FS).map Entry.name).Nodup ∧
      ((∀ f ∈ scanFiles [⟨"7.txt".data, true, 0⟩],
          f.origName = canonName f.number f.extension →
          ∀ o nm, step 0 0 f ≠ .renamed o nm)
        ∧ runFS 0 0 (runFS 0 0 [⟨"7.txt".data, true, 0⟩]) =
            runFS 0 0 [⟨"7.txt".data, true, 0⟩]) :=
  ⟨by decide, c2_offset_zero_canonical_and_idempotent 0 [⟨"7.txt".data, true, 0⟩] (by decide)⟩

/-! ### Claim C3 -/

/-- Claim C3: for every matched file, when a rename is attempted the new
numeric prefix is exactly `number + offset` computed over the unbounded
integers (no wraparound can reach a rename), and a file whose exact
`number + offset` is negative never has a rename attempted anywhere in the
run.  The offset is assumed representable in `int`, as guaranteed by the
successful `std::cin` read. -/
theorem c3_exact_integer_arithmetic (a b : Int) (fs : FS) (ha1 : INT_MIN ≤ a)
    (ha2 : a ≤ INT_MAX) (f : FileInfo) (hf : f ∈ scanFiles fs) :
    (∀ nm, step a b f = .renamed f.origName nm →
      nm = canonName (f.number + a) f.extension ∧ 0 ≤ f.number + a)
    ∧ (f.number + a < 0 →
        ∀ p ∈ renamesOf (run (some a) (some b) (some fs)), p.1 ≠ f.origName) := by
  obtain ⟨h0, hmax, -, -⟩ := scanFiles_facts hf
  constructor
  · intro nm h
    obtain ⟨-, hnm, -, hwnn, -⟩ := step_renamed_inv h
    have hw : wrap32 (f.number + a) = f.number + a ∧ 0 ≤ f.number + a := by
      unfold wrap32 at hwnn ⊢
      unfold INT_MAX at hmax ha2
      unfold INT_MIN at ha1
      omega
    rw [hnm, hw.1]
    exact ⟨rfl, hw.2⟩
  · intro hneg p hp hc
    obtain ⟨o, n⟩ := p
    obtain ⟨g, hg, hstep⟩ := renamesOf_run hp
    obtain ⟨go, -, -, hwng, -⟩ := step_renamed_inv hstep
    have hgf : g = f := scan_name_inj hg hf (go.symm.trans hc)
    rw [hgf] at hwng
    apply hwng
    unfold wrap32
    unfold INT_MAX at hmax ha2
    unfold INT_MIN at ha1
    omega

/-- Concrete instantiation of claim C3 at offset `1`, minimum `0`, directory
`{5.txt}` and the matched file `5.txt`. -/
theorem c3_exact_integer_arithmetic_witness :
    (INT_MIN ≤ 1 ∧ (1 : Int) ≤ INT_MAX ∧
      (⟨5, "5.txt".data, "txt".data⟩ : FileInfo) ∈ scanFiles [⟨"5.txt".data, true, 0⟩]) ∧
      ((∀ nm, step 1 0 ⟨5, "5.txt".data, "txt".data⟩ =
          .renamed ("5.txt".data) nm →
          nm = canonName ((5 : Int) + 1) ("txt".data) ∧ (0 : Int) ≤ 5 + 1)
        ∧ ((5 : Int) + 1 < 0 →
            ∀ p ∈ renamesOf (run (some 1) (some 0) (some [⟨"5.txt".data, true, 0⟩])),
              p.1 ≠ "5.txt".data)) :=
  ⟨⟨by decide, by decide, by decide⟩,
    c3_exact_integer_arithmetic 1 0 [⟨"5.txt".data, true, 0⟩] (by decide) (by decide)
      ⟨5, "5.txt".data, "txt".data⟩ (by decide)⟩

/-! ### Claim C4 -/

/-- Claim C4: when the integer input for the offset or the minimum fails to
parse, or directory enumeration fails, the program exits with status `1`
having produced no actions at all, so applying its (empty) action trace
leaves every directory unchanged. -/
theorem c4_fatal_before_any_rename (ia ib : Option Int) (d : Option FS)
    (h : ia = none ∨ ib = none ∨ d = none) :
    exitCode (run ia ib d) = 1 ∧ tracesOf (run ia ib d) = [] ∧
      ∀ s : FS, applyTrace s (tracesOf (run ia ib d)) = s := by
  have hcase : run ia ib d = .invalidInput ∨ run ia ib d = .dirError := by
    rcases h with h | h | h
    · rw [h, run_noInputA]
      exact Or.inl rfl
    · cases ia with
      | none => rw [run_noInputA]; exact Or.inl rfl
      | some a => rw [h, run_noInputB]; exact Or.inl rfl
    · cases ia with
      | none => rw [run_noInputA]; exact Or.inl rfl
      | some a =>
        cases ib with
        | none => rw [run_noInputB]; exact Or.inl rfl
        | some b => rw [h, run_noDir]; exact Or.inr rfl
  rcases hcase with hc | hc <;> rw [hc] <;> exact ⟨rfl, rfl, fun s => rfl⟩

/-- Concrete instantiation of claim C4 when the first integer read fails. -/
theorem c4_fatal_before_any_rename_witness :
    ((none : Option Int) = none ∨ (some 0 : Option Int) = none ∨
        (some ([] : FS) : Option FS) = none) ∧
      (exitCode (run none (some 0) (some ([] : FS))) = 1 ∧
        tracesOf (run none (some 0) (some ([] : FS))) = [] ∧
        ∀ s : FS, applyTrace s (tracesOf (run none (some 0) (some ([] : FS)))) = s) :=
  ⟨Or.inl rfl, c4_fatal_before_any_rename none (some 0) (some []) (Or.inl rfl)⟩

/-! ### Claim C5 -/

/-- Claim C5: a matched file whose original number is strictly below the
minimum is dispatched to the below-minimum skip, and no rename attempted
anywhere in the run has that file's name as its source, for every offset. -/
theorem c5_below_minimum_never_renamed (a b : Int) (fs : FS) (f : FileInfo)
    (hf : f ∈ scanFiles fs) (hlt : f.number < b) :
    step a b f = .skippedMin f.origName ∧
      ∀ p ∈ renamesOf (run (some a) (some b) (some fs)), p.1 ≠ f.origName := by
  refine ⟨step_skippedMin hlt, ?_⟩
  intro p hp hc
  obtain ⟨o, n⟩ := p
  obtain ⟨g, hg, hstep⟩ := renamesOf_run hp
  obtain ⟨go, -, hgnlt, -, -⟩ := step_renamed_inv hstep
  have hgf : g = f := scan_name_inj hg hf (go.symm.trans hc)
  rw [hgf] at hgnlt
  exact hgnlt hlt

/-- Concrete instantiation of claim C5 at offset `1`, minimum `5`, directory
`{3.txt}` and the matched file `3.txt`. -/
theorem c5_below_minimum_never_renamed_witness :
    ((⟨3, "3.txt".data, "txt".data⟩ : FileInfo) ∈ scanFiles [⟨"3.txt".data, true, 0⟩] ∧
        (3 : Int) < 5) ∧
      (step 1 5 ⟨3, "3.txt".data, "txt".data⟩ = .skippedMin ("3.txt".data) ∧
        ∀ p ∈ renamesOf (run (some 1) (some 5) (some [⟨"3.txt".data, true, 0⟩])),
          p.1 ≠ "3.txt".data) :=
  ⟨⟨by decide, by decide⟩,
    c5_below_minimum_never_renamed 1 5 [⟨"3.txt".data, true, 0⟩]
      ⟨3, "3.txt".data, "txt".data⟩ (by decide) (by decide)⟩

/-! ### Claim C6 -/

/-- Claim C6: for every processed file the three skip rules are applied in
the fixed source order — below minimum first, then negative new number, then
identical new name — with the first matching rule deciding the reported
skip, and a rename is attempted exactly when none of the three applies. -/
theorem c6_skip_rules_in_order (a b : Int) (f : FileInfo) :
    (step a b f = .skippedMin f.origName ↔ f.number < b)
    ∧ (step a b f = .skippedNeg f.origName ↔
        ¬ f.number < b ∧ wrap32 (f.number + a) < 0)
    ∧ (step a b f = .skippedSame f.origName ↔
        ¬ f.number < b ∧ ¬ wrap32 (f.number + a) < 0 ∧
          f.origName = canonName (wrap32 (f.number + a)) f.extension)
    ∧ ((∃ nm, step a b f = .renamed f.origName nm) ↔
        ¬ f.number < b ∧ ¬ wrap32 (f.number + a) < 0 ∧
          f.origName ≠ canonName (wrap32 (f.number + a)) f.extension) := by
  by_cases h1 : f.number < b
  · simp [step, h1]
  · by_cases h2 : wrap32 (f.number + a) < 0
    · simp [step, h1, h2]
    · by_cases h3 : f.origName = canonName (wrap32 (f.number + a)) f.extension
      · simp [step, h1, h2, h3]
      · simp [step, h1, h2, h3]

/-! ### Claim C7 -/

/-- Claim C7: a digit run that overflows `int` and an individual rename
failure are per-file recoverable.  A regex-matched entry whose digit value
exceeds `INT_MAX` is dropped from the scan while every other entry is
processed exactly as without it; once both inputs parse and enumeration
succeeds the program always exits `0` (neither condition is fatal); the
rename pass emits exactly one action per matched file; and a failed rename
leaves the directory unchanged while the remaining actions still apply. -/
theorem c7_per_file_recovery :
    (∀ (e : Entry) (l1 l2 : List Entry) (v : Nat) (ext : Name),
        parseName e.name = some (v, ext) → 2147483647 < v →
        scanFiles (l1 ++ e :: l2) = scanFiles (l1 ++ l2))
    ∧ (∀ (a b : Int) (fs : FS), exitCode (run (some a) (some b) (some fs)) = 0)
    ∧ (∀ (a b : Int) (files : List FileInfo),
        (renamePass a b files).length = files.length)
    ∧ (∀ (s : FS) (old nw : Name) (rest : List Action), applyRename s old nw = s →
        applyTrace s (.renamed old nw :: rest) = applyTrace s rest) := by
  refine ⟨?_, ?_, ?_, ?_⟩
  · intro e l1 l2 v ext hp hv
    have hnone : (if e.isReg then parseEntry? e.name else none) = none := by
      by_cases hr : e.isReg = true
      · rw [if_pos hr]
        unfold parseEntry?
        rw [hp]
        exact if_neg (by omega)
      · exact if_neg hr
    unfold scanFiles
    rw [List.filterMap_append, List.filterMap_append]
    simp only [List.filterMap_cons, hnone]
  · intro a b fs
    rw [run_some]
    by_cases he : (scanFiles fs).isEmpty
    · rw [if_pos he]
      rfl
    · rw [if_neg he]
      rfl
  · intro a b files
    simp [renamePass]
  · intro s old nw rest h
    rw [applyTrace_cons, applyAction_renamed, h]

/-- Concrete instantiation of claim C7: the entry `9999999999.txt` matches
the pattern but overflows `int` and is skipped while `1.txt` and `2.txt`
are still scanned; a run over `{1.txt}` exits `0`; the pass over one file
emits one action; and a rename blocked by the directory `7.txt` leaves the
state unchanged with the rest of the trace still applied. -/
theorem c7_per_file_recovery_witness :
    (parseName ("9999999999.txt".data) = some (9999999999, "txt".data) ∧
        2147483647 < 9999999999 ∧
        applyRename [⟨"7.txt".data, false, 0⟩] ("5.txt".data) ("7.txt".data) =
          [⟨"7.txt".data, false, 0⟩]) ∧
      scanFiles ([⟨"1.txt".data, true, 0⟩] ++
          ⟨"9999999999.txt".data, true, 1⟩ :: [⟨"2.txt".data, true, 2⟩]) =
        scanFiles ([⟨"1.txt".data, true, 0⟩] ++ [⟨"2.txt".data, true, 2⟩]) ∧
      exitCode (run (some 1) (some 0) (some [⟨"1.txt".data, true, 0⟩])) = 0 ∧
      (renamePass 1 0 [⟨1, "1.txt".data, "txt".data⟩]).length =
        ([⟨1, "1.txt".data, "txt".data⟩] : List FileInfo).length ∧
      applyTrace [⟨"7.txt".data, false, 0⟩]
          (.renamed ("5.txt".data) ("7.txt".data) :: []) =
        applyTrace [⟨"7.txt".data, false, 0⟩] [] :=
  ⟨⟨by decide, by decide, by decide⟩,
    c7_per_file_recovery.1 ⟨"9999999999.txt".data, true, 1⟩ [⟨"1.txt".data, true, 0⟩]
      [⟨"2.txt".data, true, 2⟩] 9999999999 ("txt".data) (by decide) (by decide),
    c7_per_file_recovery.2.1 1 0 [⟨"1.txt".data, true, 0⟩],
    c7_per_file_recovery.2.2.1 1 0 [⟨1, "1.txt".data, "txt".data⟩],
    c7_per_file_recovery.2.2.2 [⟨"7.txt".data, false, 0⟩] ("5.txt".data) ("7.txt".data)
      [] (by decide)⟩

/-! ### Claim C8 -/

/-- Claim C8, counterexample to the claim as stated.  On the directory
`{007.txt, 7.txt}` with offset `0` and minimum `0`, renaming `007.txt` to
its canonical name `7.txt` overwrites the existing regular file `7.txt`
(the semantics of `std::filesystem::rename`), so the content of `7.txt` is
deleted by the run, refuting the part of the claim that no file content is
ever deleted. -/
theorem c8_overwrite_deletes_content :
    (∃ e ∈ ([⟨"007.txt".data, true, 1⟩, ⟨"7.txt".data, true, 2⟩] : FS),
        e.isReg = true ∧ e.content = 2) ∧
      ∀ e ∈ runFS 0 0 [⟨"007.txt".data, true, 1⟩, ⟨"7.txt".data, true, 2⟩],
        e.content ≠ 2 := by
  decide

/-- Claim C8, amended: the only filesystem mutation of a run is renaming
matched files in place.  Every name that is not the source or target of an
attempted rename keeps exactly its entries; every regular file present after
the run carries content that some regular file already had before it (no
content is created or modified); and the non-regular entries are exactly
preserved.  A rename whose target name is an existing regular file does,
however, overwrite it. -/
theorem c8_frame_conditions (a b : Int) (fs : FS) (hnd : (fs.map Entry.name).Nodup) :
    (∀ nm : Name, (∀ act ∈ fullTrace a b fs, ¬ touches act nm) →
        ∀ e : Entry, e.name = nm → (e ∈ runFS a b fs ↔ e ∈ fs))
    ∧ (∀ e ∈ runFS a b fs, e.isReg = true →
        ∃ e0 ∈ fs, e0.isReg = true ∧ e0.content = e.content)
    ∧ (∀ e : Entry, e.isReg = false → (e ∈ runFS a b fs ↔ e ∈ fs)) := by
  refine ⟨?_, ?_, ?_⟩
  · intro nm h e hen
    exact applyTrace_untouched h hen
  · intro e he hr
    exact applyTrace_content he hr
  · intro e hnr
    exact ⟨fun he => applyTrace_nonreg_mem he hnr, fun he => applyTrace_mem_nonreg hnd he hnr⟩

/-- Concrete instantiation of the amended claim C8 on `{5.txt}` with offset
`2` and minimum `0`. -/
theorem c8_frame_conditions_witness :
    (([⟨"5.txt".data, true, 0⟩] : FS).map Entry.name).Nodup ∧
      ((∀ nm : Name, (∀ act ∈ fullTrace 2 0 [⟨"5.txt".data, true, 0⟩], ¬ touches act nm) →
          ∀ e : Entry, e.name = nm →
            (e ∈ runFS 2 0 [⟨"5.txt".data, true, 0⟩] ↔ e ∈ [⟨"5.txt".data, true, 0⟩]))
        ∧ (∀ e ∈ runFS 2 0 [⟨"5.txt".data, true, 0⟩], e.isReg = true →
            ∃ e0 ∈ ([⟨"5.txt".data, true, 0⟩] : FS), e0.isReg = true ∧ e0.content = e.content)
        ∧ (∀ e : Entry, e.isReg = false →
            (e ∈ runFS 2 0 [⟨"5.txt".data, true, 0⟩] ↔ e ∈ [⟨"5.txt".data, true, 0⟩]))) :=
  ⟨by decide, c8_frame_conditions 2 0 [⟨"5.txt".data, true, 0⟩] (by decide)⟩

/-! ### Claim C9 -/

/-- Claim C9: every new filename the program constructs for an attempted
rename is the decimal rendering of a non-negative number with no leading
zeros, followed by a dot and the original non-empty extension, and it is
again matched (with that number and extension) by the scan of a subsequent
run. -/
theorem c9_new_names_canonical (a b : Int) (fs : FS) (f : FileInfo)
    (hf : f ∈ scanFiles fs) (nm : Name) (h : step a b f = .renamed f.origName nm) :
    ∃ m : Nat, nm = natToDigits m ++ '.' :: f.extension
      ∧ parseEntry? nm = some ⟨(m : Int), nm, f.extension⟩
      ∧ (m = 0 → natToDigits m = ['0'])
      ∧ (0 < m → (natToDigits m).head? ≠ some '0')
      ∧ f.extension ≠ [] := by
  obtain ⟨-, hnm, -, hwnn, -⟩ := step_renamed_inv h
  obtain ⟨-, -, hext, hok⟩ := scanFiles_facts hf
  have hnn : 0 ≤ wrap32 (f.number + a) := not_lt.mp hwnn
  have hle : wrap32 (f.number + a) ≤ INT_MAX := by
    have := wrap32_lt (f.number + a)
    unfold INT_MAX
    omega
  refine ⟨(wrap32 (f.number + a)).toNat, ?_, ?_, ?_, ?_, hext⟩
  · rw [hnm]
    rfl
  · rw [hnm]
    rw [@parseEntry?_canonical (wrap32 (f.number + a)) f.extension hnn hle hext hok]
    rw [Int.toNat_of_nonneg hnn]
  · intro hm
    rw [hm]
    exact natToDigits_zero
  · intro hm
    exact natToDigits_head_ne_zero hm

/-- Concrete instantiation of claim C9 on `{5.txt}` with offset `1`,
minimum `0`: the constructed name is `6.txt`. -/
theorem c9_new_names_canonical_witness :
    ((⟨5, "5.txt".data, "txt".data⟩ : FileInfo) ∈ scanFiles [⟨"5.txt".data, true, 0⟩] ∧
        step 1 0 ⟨5, "5.txt".data, "txt".data⟩ =
          .renamed ("5.txt".data) ("6.txt".data)) ∧
      ∃ m : Nat, "6.txt".data = natToDigits m ++ '.' :: "txt".data
        ∧ parseEntry? ("6.txt".data) = some ⟨(m : Int), "6.txt".data, "txt".data⟩
        ∧ (m = 0 → natToDigits m = ['0'])
        ∧ (0 < m → (natToDigits m).head? ≠ some '0')
        ∧ ("txt".data : Name) ≠ [] :=
  ⟨⟨by decide, by decide⟩,
    c9_new_names_canonical 1 0 [⟨"5.txt".data, true, 0⟩] ⟨5, "5.txt".data, "txt".data⟩
      (by decide) ("6.txt".data) (by decide)⟩

/-! ### Claim C10 -/

/-- Claim C10, counterexample to the claim as stated.  The directories
`{007.txt}` and `{7.txt}` contain matched files with the same number `7` and
the same extension `txt`, and the inputs (offset `0`, minimum `0`) agree,
yet the first run attempts a rename for its file while the second skips:
the skip outcome depends on the original spelling of the name, not only on
the number and extension. -/
theorem c10_same_number_ext_different_outcome :
    ((scanFiles [⟨"007.txt".data, true, 0⟩]).map (fun f => (f.number, f.extension)) =
        (scanFiles [⟨"7.txt".data, true, 0⟩]).map (fun f => (f.number, f.extension))) ∧
      (fullTrace 0 0 [⟨"007.txt".data, true, 0⟩]).any isRenameAct = true ∧
      (fullTrace 0 0 [⟨"7.txt".data, true, 0⟩]).any isRenameAct = false := by
  decide

/-- Claim C10, amended: the skip decision and the computed target filename of
a matched file depend only on that file's own directory entry (hence on its
full original name, number and extension) and on the two inputs: in any two
runs with the same inputs whose directories both contain the entry, the very
same action — same skip outcome or same source and target names — occurs in
both traces, regardless of which other files are present. -/
theorem c10_outcome_independent_of_other_files (a b : Int) (e : Entry)
    (l1 l2 : List Entry) (f : FileInfo) (hreg : e.isReg = true)
    (hp : parseEntry? e.name = some f) (h1 : e ∈ l1) (h2 : e ∈ l2) :
    step a b f ∈ fullTrace a b l1 ∧ step a b f ∈ fullTrace a b l2 := by
  have key : ∀ l : FS, e ∈ l → step a b f ∈ fullTrace a b l := by
    intro l hl
    unfold fullTrace renamePass
    rw [List.mem_map]
    exact ⟨f, mem_sortFiles.mpr (mem_scanFiles.mpr ⟨e, hl, hreg, hp⟩), rfl⟩
  exact ⟨key l1 h1, key l2 h2⟩

/-- Concrete instantiation of the amended claim C10: the entry `5.txt` gets
the same action in the run over `{5.txt}` and in the run over
`{9.txt, 5.txt}`. -/
theorem c10_outcome_independent_of_other_files_witness :
    ((⟨"5.txt".data, true, 0⟩ : Entry).isReg = true ∧
        parseEntry? ("5.txt".data) = some ⟨5, "5.txt".data, "txt".data⟩ ∧
        (⟨"5.txt".data, true, 0⟩ : Entry) ∈ ([⟨"5.txt".data, true, 0⟩] : FS) ∧
        (⟨"5.txt".data, true, 0⟩ : Entry) ∈
          ([⟨"9.txt".data, true, 1⟩, ⟨"5.txt".data, true, 0⟩] : FS)) ∧
      (step 1 0 ⟨5, "5.txt".data, "txt".data⟩ ∈
          fullTrace 1 0 [⟨"5.txt".data, true, 0⟩] ∧
        step 1 0 ⟨5, "5.txt".data, "txt".data⟩ ∈
          fullTrace 1 0 [⟨"9.txt".data, true, 1⟩, ⟨"5.txt".data, true, 0⟩]) :=
  ⟨⟨by decide, by decide, by decide, by decide⟩,
    c10_outcome_independent_of_other_files 1 0 ⟨"5.txt".data, true, 0⟩
      [⟨"5.txt".data, true, 0⟩] [⟨"9.txt".data, true, 1⟩, ⟨"5.txt".data, true, 0⟩]
      ⟨5, "5.txt".data, "txt".data⟩ (by decide) (by decide) (by decide) (by decide)⟩

end Caro
